import Mathlib

set_option maxRecDepth 40000

/-!
Verification development for the hibp-bloom Bloom-filter engine.

This file gives a shallow embedding of the core engine implemented in
`src/hibp-bloom.c`, `src/save-stream.h` and `src/load-stream.h`:

* machine bytes and `size_t` values are modelled as `Nat`, with explicit
  `% 2 ^ 64` truncation exactly where the 64-bit C arithmetic can wrap
  (the development fixes the common 64-bit host: `sizeof(size_t) = 8`);
* buffers are `List Nat` of byte values;
* the external SHA-1 primitive (from OpenSSL) is an opaque parameter
  `sha1fn : List Nat → List Nat`, since only its interface is part of the
  engine;
* the PRNG callback is a parameter `prng : PrngState → Nat → Nat × PrngState`
  threading its mutable context explicitly;
* byte streams are `List Nat` (for `getc`-style readers) and an abstract
  `putc : Nat → W → Option W` writer (for `fputc`-style writers), where
  `none` models the `EOF` error return;
* out-parameter style C functions return a `hibp_status × Option _` pair;
  `malloc`/`calloc` failure (`HIBP_E_NOMEM`) is not modelled: allocation
  always succeeds in the embedding.

Definitions are translated from the C source; the few places where the C
source has undefined behaviour (`(size_t)1 << 64`) are modelled as the
mod-2^64 truncation the machine performs, and are called out in comments.
-/

namespace HibpBloom

/-- `HIBP_SHA1_BYTES` from `include/hibp-bloom.h`. -/
def HIBP_SHA1_BYTES : Nat := 20

/-- `SHA1_BYTES` in `hibp-bloom.c`. -/
def SHA1_BYTES : Nat := HIBP_SHA1_BYTES

/-- `SHA1_BITS = 8 * HIBP_SHA1_BYTES` in `hibp-bloom.c`. -/
def SHA1_BITS : Nat := 8 * HIBP_SHA1_BYTES

/-- `SIZE_MAX = ~(size_t)0` on a 64-bit host. -/
def SIZE_MAX : Nat := 2 ^ 64 - 1

/-- `LOG2_BITS_MAX = MIN(8 * sizeof(size_t), SHA1_BITS)`; on a 64-bit host
this is `min 64 160 = 64`. -/
def LOG2_BITS_MAX : Nat := min (8 * 8) SHA1_BITS

/-- `N_HASH_FUNCTIONS_MAX = MIN(SIZE_MAX, 0xffffffffffffffff)`; on a 64-bit
host both operands are `2^64 - 1`. -/
def N_HASH_FUNCTIONS_MAX : Nat := min SIZE_MAX 0xffffffffffffffff

/-- The magic version marker `VERSION[] = { 0xb1, 0x00, 0x13, 0x37 }`. -/
def VERSION : List Nat := [0xb1, 0x00, 0x13, 0x37]

/-- `hibp_status_t` from `include/hibp-bloom.h`.  The C enum constant
`HIBP_E_IO` is rendered `HIBP_E_IOERR` here (same meaning: stream error or
unexpected EOF). -/
inductive hibp_status : Type where
  | HIBP_E_NOMEM : hibp_status
  | HIBP_E_VERSION : hibp_status
  | HIBP_E_IOERR : hibp_status
  | HIBP_E_CHECKSUM : hibp_status
  | HIBP_E_2BIG : hibp_status
  | HIBP_E_INVAL : hibp_status
  | HIBP_OK : hibp_status
deriving DecidableEq

open hibp_status

/-- `hibp_bloom_filter_t`: the number of hash functions, the log2 of the
bit-vector length, and the single flat byte buffer holding the hash-function
table followed by the bit vector. -/
structure hibp_bloom_filter : Type where
  n_hash_functions : Nat
  log2_bits : Nat
  buffer : List Nat
deriving DecidableEq

/-- `compute_buffer_size` from `hibp-bloom.c`.  Returns the status together
with the buffer size (the C function writes the size through an out
parameter only on success; we return `0` in the error cases).

The C expression `((size_t)1) << log2_bits` is undefined behaviour when
`log2_bits = 64` (shift by the full width); it is modelled here as the
truncation `(1 <<< log2_bits) % 2 ^ 64` that 64-bit arithmetic performs,
which yields `0` for `log2_bits = 64`. -/
def compute_buffer_size (n_hash_functions log2_bits : Nat) : hibp_status × Nat :=
  if n_hash_functions = 0 then
    (HIBP_E_INVAL, 0)
  else if LOG2_BITS_MAX < log2_bits ∨ N_HASH_FUNCTIONS_MAX < n_hash_functions then
    (HIBP_E_2BIG, 0)
  else if SIZE_MAX / n_hash_functions < log2_bits then
    (HIBP_E_2BIG, 0)
  else
    let hash_functions_size := log2_bits * n_hash_functions
    let vector_bits := (1 <<< log2_bits) % 2 ^ 64
    let vector_size := vector_bits / 8 + (if vector_bits % 8 ≠ 0 then 1 else 0)
    if SIZE_MAX - vector_size < hash_functions_size then
      (HIBP_E_2BIG, 0)
    else
      (HIBP_OK, hash_functions_size + vector_size)

/-- `eval_nth_hash_function` from `hibp-bloom.c`: gather `log2_bits` bits of
`sha` at the bit-indices stored in the `k`-th hash-function slice of the
buffer, packing them little-endian.  Out-of-range reads (which would be
undefined behaviour in C) are modelled by `List.getD _ _ 0`. -/
def evalIndex (bf : hibp_bloom_filter) (k i : Nat) : Nat :=
  bf.buffer.getD (k * bf.log2_bits + i) 0

/-- `(sha[index / 8] >> (index % 8)) & 1`: the `index`-th bit of the digest,
for the `i`-th entry of hash function `k`. -/
def evalBit (bf : hibp_bloom_filter) (k : Nat) (sha : List Nat) (i : Nat) : Nat :=
  (sha.getD (evalIndex bf k i / 8) 0 >>> (evalIndex bf k i % 8)) &&& 1

def eval_nth_hash_function (bf : hibp_bloom_filter) (k : Nat) (sha : List Nat) : Nat :=
  (List.range bf.log2_bits).foldl
    (fun value i => value ||| (evalBit bf k sha i <<< i))
    0

/-- The body of the insertion loop: `vector[k / 8] |= 1 << (k % 8)` for
`k = eval_nth_hash_function(bf, i, sha)`, where the bit vector starts at
offset `n_hash_functions * log2_bits` of the (shared, already partially
updated) flat buffer. -/
def insertStep (n b : Nat) (sha : List Nat) (buf : List Nat) (i : Nat) : List Nat :=
  let k := eval_nth_hash_function ⟨n, b, buf⟩ i sha
  let off := n * b + k / 8
  buf.set off (buf.getD off 0 ||| (1 <<< (k % 8)))

/-- `hibp_bf_insert_sha1`: for every hash function `i`, set bit
`eval_nth_hash_function bf i sha` of the bit vector (which lives in the same
flat buffer, after the `n_hash_functions * log2_bits` table bytes). -/
def hibp_bf_insert_sha1 (bf : hibp_bloom_filter) (sha : List Nat) : hibp_bloom_filter :=
  { bf with
    buffer :=
      (List.range bf.n_hash_functions).foldl
        (insertStep bf.n_hash_functions bf.log2_bits sha)
        bf.buffer }

/-- `(vector[k / 8] >> (k % 8)) & 1`, the queried bit of the bit vector. -/
def queryBit (n b : Nat) (buf : List Nat) (k : Nat) : Nat :=
  (buf.getD (n * b + k / 8) 0 >>> (k % 8)) &&& 1

/-- `hibp_bf_query_sha1`: true iff for every hash function `i`, bit
`eval_nth_hash_function bf i sha` of the bit vector is set. -/
def hibp_bf_query_sha1 (bf : hibp_bloom_filter) (sha : List Nat) : Bool :=
  (List.range bf.n_hash_functions).all fun i =>
    queryBit bf.n_hash_functions bf.log2_bits bf.buffer
      (eval_nth_hash_function bf i sha) != 0

/-- `hibp_bf_insert`: hash the byte buffer with SHA-1, then insert the
digest.  `sha1fn` is the external SHA-1 collaborator. -/
def hibp_bf_insert (sha1fn : List Nat → List Nat) (bf : hibp_bloom_filter)
    (buf : List Nat) : hibp_bloom_filter :=
  hibp_bf_insert_sha1 bf (sha1fn buf)

/-- `hibp_bf_query`: hash the byte buffer with SHA-1, then query the
digest. -/
def hibp_bf_query (sha1fn : List Nat → List Nat) (bf : hibp_bloom_filter)
    (buf : List Nat) : Bool :=
  hibp_bf_query_sha1 bf (sha1fn buf)

/-- Value of an ASCII hexadecimal digit, or `none`.  Follows the three
range tests of `hibp_sha1_hex2bin` (`0-9`, `a-f`, `A-F`, in that order). -/
def hexDigitVal (c : Nat) : Option Nat :=
  if 48 ≤ c ∧ c ≤ 57 then some (c - 48)
  else if 97 ≤ c ∧ c ≤ 102 then some (0xa + c - 97)
  else if 65 ≤ c ∧ c ≤ 70 then some (0xa + c - 65)
  else none

/-- One iteration of the outer loop of `hibp_sha1_hex2bin`: the inner loop
`for(int k = i; k <= i + 1; k ++)` reads the two characters `hex[i]` and
`hex[i + 1]` (note: not `hex[2*i]` and `hex[2*i + 1]`), shifting each nibble
into the byte `bin[i]` (an `unsigned char`, hence the `% 256`). -/
def hex2binByte (hex : List Nat) (i : Nat) : Option Nat :=
  match hexDigitVal (hex.getD i 0), hexDigitVal (hex.getD (i + 1) 0) with
  | some v1, some v2 => some (((((0 <<< 4) % 256 ||| v1) <<< 4) % 256 ||| v2))
  | _, _ => none

/-- `hibp_sha1_hex2bin` from `hibp-bloom.c`.  The input string is a list of
character codes (reads past the end of the list yield the NUL byte `0`,
which is not a hex digit, like a terminated C string).  On the first
non-hex character the C function returns `HIBP_E_INVAL` (the partially
written output buffer is meaningless and is modelled as `none`). -/
def hibp_sha1_hex2bin (hex : List Nat) : hibp_status × Option (List Nat) :=
  match (List.range 20).mapM (hex2binByte hex) with
  | some bin => (HIBP_OK, some bin)
  | none => (HIBP_E_INVAL, none)

/-- `size_t_to_le_8_bytes`: the C loop peels off the low byte and shifts
right by 8, eight times; byte `i` of the output is `(size >> 8*i) & 0xff`. -/
def size_t_to_le_8_bytes (size : Nat) : List Nat :=
  (List.range 8).map fun i => (size >>> (8 * i)) % 256

/-- `le_8_bytes_to_size_t` on a 64-bit host: `sizeof(size_t) = 8`, so the
high-byte rejection loop is empty and the function always succeeds; it ors
together the 8 bytes shifted into place. -/
def le_8_bytes_to_size_t (buffer : List Nat) : Nat :=
  (List.range 8).foldl (fun size i => size ||| (buffer.getD i 0 <<< (8 * i))) 0

/-- `my_write`: write the bytes of `buffer` one at a time with `putc`;
`none` models the C function returning `-1` after a `putc` returned `EOF`. -/
def my_write {W : Type} (putc : Nat → W → Option W) (buffer : List Nat) (w : W) :
    Option W :=
  buffer.foldlM (fun w b => putc b w) w

/-- `hibp_bf_save_stream` from `save-stream.h`: version marker, then
`n_hash_functions` as 8 little-endian bytes, then `log2_bits` as one byte,
then the SHA-1 checksum of the buffer, then the buffer.  Every failed write
returns `HIBP_E_IOERR`.  The C code `assert`s that `compute_buffer_size`
succeeds (it always does for a filter produced by the library); the
corresponding unreachable branch returns the failing status. -/
def hibp_bf_save_stream {W : Type} (sha1fn : List Nat → List Nat)
    (putc : Nat → W → Option W) (bf : hibp_bloom_filter) (w : W) :
    hibp_status × Option W :=
  match my_write putc VERSION w with
  | none => (hibp_status.HIBP_E_IOERR, none)
  | some w =>
    match my_write putc (size_t_to_le_8_bytes bf.n_hash_functions) w with
    | none => (hibp_status.HIBP_E_IOERR, none)
    | some w =>
      match putc bf.log2_bits w with
      | none => (hibp_status.HIBP_E_IOERR, none)
      | some w =>
        let st := (compute_buffer_size bf.n_hash_functions bf.log2_bits).1
        let buffer_size := (compute_buffer_size bf.n_hash_functions bf.log2_bits).2
        if st ≠ hibp_status.HIBP_OK then (st, none)
        else
          match my_write putc (sha1fn (bf.buffer.take buffer_size)) w with
          | none => (hibp_status.HIBP_E_IOERR, none)
          | some w =>
            match my_write putc (bf.buffer.take buffer_size) w with
            | none => (hibp_status.HIBP_E_IOERR, none)
            | some w => (hibp_status.HIBP_OK, some w)

/-- The `fputc`-style writer used to save into a growing byte list: always
succeeds and appends `(unsigned char)b`. -/
def listPutc (b : Nat) (w : List Nat) : Option (List Nat) :=
  some (w ++ [b % 256])

/-- Save a filter to an in-memory byte sequence (the list-writer instance of
`hibp_bf_save_stream`, starting from an empty stream). -/
def hibp_bf_save_bytes (sha1fn : List Nat → List Nat) (bf : hibp_bloom_filter) :
    hibp_status × Option (List Nat) :=
  hibp_bf_save_stream sha1fn listPutc bf []

/-- `my_read`: read `size` bytes from the stream; `none` models hitting
`EOF`.  Each byte is stored through `(byte)c`, modelled as `% 256`.  Returns
the bytes read and the rest of the stream. -/
def my_read (size : Nat) (input : List Nat) : Option (List Nat × List Nat) :=
  if size ≤ input.length then
    some ((input.take size).map (· % 256), input.drop size)
  else
    none

/-- `hibp_bf_load_stream` from `load-stream.h`, on a 64-bit host (so the
`le_8_bytes_to_size_t` high-byte rejection that returns `HIBP_E_2BIG` on
narrower hosts cannot trigger).  Allocation failure (`HIBP_E_NOMEM`) is not
modelled.  Trailing stream bytes are never read. -/
def hibp_bf_load_stream (sha1fn : List Nat → List Nat) (input : List Nat) :
    hibp_status × Option hibp_bloom_filter :=
  match my_read 4 input with
  | none => (hibp_status.HIBP_E_IOERR, none)
  | some (this_version, input) =>
    if this_version ≠ VERSION then (hibp_status.HIBP_E_VERSION, none)
    else
      match my_read 8 input with
      | none => (hibp_status.HIBP_E_IOERR, none)
      | some (kbytes, input) =>
        let n_hash_functions := le_8_bytes_to_size_t kbytes
        match my_read 1 input with
        | none => (hibp_status.HIBP_E_IOERR, none)
        | some (bbytes, input) =>
          let log2_bits := bbytes.getD 0 0
          let st := (compute_buffer_size n_hash_functions log2_bits).1
          let buffer_size := (compute_buffer_size n_hash_functions log2_bits).2
          if st ≠ hibp_status.HIBP_OK then (st, none)
          else
            match my_read SHA1_BYTES input with
            | none => (hibp_status.HIBP_E_IOERR, none)
            | some (checksum, input) =>
              match my_read buffer_size input with
              | none => (hibp_status.HIBP_E_IOERR, none)
              | some (buffer, _) =>
                if sha1fn buffer ≠ checksum then (hibp_status.HIBP_E_CHECKSUM, none)
                else (hibp_status.HIBP_OK, some ⟨n_hash_functions, log2_bits, buffer⟩)

/-- Interface contract of the external SHA-1 collaborator: 20 output bytes,
each a byte value. -/
def SHA1FnOK (sha1fn : List Nat → List Nat) : Prop :=
  ∀ bytes, (sha1fn bytes).length = 20 ∧ ∀ b ∈ sha1fn bytes, b < 256

/-- A filter as produced by the library: its parameters validate, the buffer
has exactly the size `compute_buffer_size` assigns, and it holds bytes. -/
def WellFormed (bf : hibp_bloom_filter) : Prop :=
  (compute_buffer_size bf.n_hash_functions bf.log2_bits).1 = hibp_status.HIBP_OK ∧
  bf.buffer.length = (compute_buffer_size bf.n_hash_functions bf.log2_bits).2 ∧
  ∀ b ∈ bf.buffer, b < 256

instance (bf : hibp_bloom_filter) : Decidable (WellFormed bf) := by
  unfold WellFormed; infer_instance

/-- The three-line array swap inside the Fisher-Yates loop of
`hibp_bf_new_prng` (`swap = permutation[i]; permutation[i] = permutation[j];
permutation[j] = swap;`).  The 160-byte `permutation` array is modelled as a
function on indices; the store to slot `j` happens second, so it wins when
`i = j` (in which case both stores write the original value back). -/
def swapPerm (p : Nat → Nat) (i j : Nat) : Nat → Nat :=
  let vi := p i
  let vj := p j
  fun x => if x = j then vi else if x = i then vj else p x

/-- One iteration of the Fisher-Yates loop body:
`j = prng(ctx, i + 1); swap permutation[i] with permutation[j]`. -/
def fyStep {S : Type} (prng : S → Nat → Nat × S) (ps : (Nat → Nat) × S) (i : Nat) :
    (Nat → Nat) × S :=
  let j := (prng ps.2 (i + 1)).1
  (swapPerm ps.1 i j, (prng ps.2 (i + 1)).2)

/-- One Fisher-Yates shuffle pass of `hibp_bf_new_prng`:
`for(i = SHA1_BITS - 1; i > 0; i --) { j = prng(ctx, i + 1); swap }`.
The PRNG's mutable context is threaded explicitly. -/
def fisherYates {S : Type} (prng : S → Nat → Nat × S) (p : Nat → Nat) (s : S) :
    (Nat → Nat) × S :=
  ((List.range' 1 (SHA1_BITS - 1)).reverse).foldl (fyStep prng) (p, s)

/-- `memcpy(hash_functions + generated, permutation, copy_size)`: the first
`copy_size` entries of the permutation array, as bytes. -/
def blockBytes (p : Nat → Nat) (copy_size : Nat) : List Nat :=
  (List.range copy_size).map p

/-- The generation loop of `hibp_bf_new_prng`: repeatedly reshuffle the
permutation and copy `min remaining SHA1_BITS` of its entries, until
`remaining` bytes have been produced.  The loop consumes at least one byte
per iteration, so structural recursion on a fuel initialised to `remaining`
is exact (the fuel is never exhausted early). -/
def genBlocks {S : Type} (prng : S → Nat → Nat × S) :
    Nat → Nat → (Nat → Nat) → S → List Nat × S
  | _, 0, _, s => ([], s)
  | 0, _ + 1, _, s => ([], s)
  | fuel + 1, remaining + 1, p, s =>
    let fy := fisherYates prng p s
    let copy_size := min (remaining + 1) SHA1_BITS
    let rest := genBlocks prng fuel (remaining + 1 - copy_size) fy.1 fy.2
    (blockBytes fy.1 copy_size ++ rest.1, rest.2)

/-- `hibp_bf_new_prng` from `hibp-bloom.c`: validate the parameters and
compute the buffer size, then build the buffer; `calloc` zero-fills, the
generation loop overwrites the first `log2_bits * n_hash_functions` bytes
with permutation blocks, and the bit vector stays zero.  The initial
permutation is the identity (`permutation[i] = i`).  `hibp_bf_new` is this
function applied to the default (OpenSSL-backed) PRNG, which lives outside
the engine. -/
def hibp_bf_new_prng {S : Type} (n_hash_functions log2_bits : Nat)
    (prng : S → Nat → Nat × S) (s : S) : hibp_status × Option hibp_bloom_filter :=
  let st := (compute_buffer_size n_hash_functions log2_bits).1
  let buffer_size := (compute_buffer_size n_hash_functions log2_bits).2
  if st ≠ hibp_status.HIBP_OK then (st, none)
  else
    let hash_functions_size := log2_bits * n_hash_functions
    let hf := (genBlocks prng hash_functions_size hash_functions_size (fun i => i) s).1
    (hibp_status.HIBP_OK,
     some ⟨n_hash_functions, log2_bits,
           hf ++ List.replicate (buffer_size - hash_functions_size) 0⟩)

/-- The candidate hash-function count of one iteration of
`hibp_compute_constrained_params`:
`ceil(pow(2, candidate_log2_bits) / count * log(2) + 1e-6)`, capped at
`N_HASH_FUNCTIONS_MAX`.  The C `double` computation is modelled in exact
real arithmetic (including the source's `1e-6` guard term); `count = 0`
makes the C division yield `+inf`, hence the cap. -/
noncomputable def constrainedK (count b : Nat) : Nat :=
  if count = 0 then N_HASH_FUNCTIONS_MAX
  else min ⌈(2 ^ b / (count : ℝ)) * Real.log 2 + 1e-6⌉₊ N_HASH_FUNCTIONS_MAX

/-- The buffer size tested by one iteration of
`hibp_compute_constrained_params`.  The source line is
`compute_buffer_size(&buffer_size, candidate_log2_bits,
candidate_n_hash_functions)` — the candidate `log2_bits` is passed in the
`n_hash_functions` position and the candidate `n_hash_functions` in the
`log2_bits` position.  A failing status makes the source use
`buffer_size = SIZE_MAX`. -/
noncomputable def constrainedSizeCode (count b : Nat) : Nat :=
  let k := constrainedK count b
  if (compute_buffer_size b k).1 = hibp_status.HIBP_OK then
    (compute_buffer_size b k).2
  else SIZE_MAX

/-- The `for(candidate_log2_bits = 8;; candidate_log2_bits ++)` loop of
`hibp_compute_constrained_params`, parameterised by the per-candidate
hash-function count `kf` and buffer size `sizef`: stop (keeping the last
recorded pair) when the size exceeds the budget and `b > 8`, otherwise
record `(kf b, b)` and continue.  The C loop has no explicit bound and is
run here on a fuel; `CP_FUEL` below is ample for every run that terminates
at all (the code's size function exceeds any `max_memory < SIZE_MAX` well
before 135 further candidates). -/
def cpLoop (kf sizef : Nat → Nat) (max_memory : Nat) :
    Nat → Nat → Nat × Nat → Nat × Nat
  | 0, _, acc => acc
  | fuel + 1, b, acc =>
    if max_memory < sizef b ∧ 8 < b then acc
    else cpLoop kf sizef max_memory fuel (b + 1) (kf b, b)

/-- Fuel for `cpLoop`; see its docstring. -/
def CP_FUEL : Nat := 512

/-- `hibp_compute_constrained_params` from `hibp-bloom.c` (the `(k, b)`
pair is returned in place of the two out parameters). -/
noncomputable def hibp_compute_constrained_params (count max_memory : Nat) : Nat × Nat :=
  cpLoop (constrainedK count) (constrainedSizeCode count) max_memory CP_FUEL 8 (0, 0)

/-- The buffer size the specification sentence attributes to each candidate:
`k * b + ceil(2^b / 8)`. -/
noncomputable def constrainedSizeClaim (count b : Nat) : Nat :=
  constrainedK count b * b + (2 ^ b + 7) / 8

/-- The claimed selection rule for `constrained_params` (identical loop,
but measuring each candidate by `k * b + ceil(2^b / 8)` as the claim
states).  This is the claim-side definition, to be compared with
`hibp_compute_constrained_params`. -/
noncomputable def constrainedParamsClaim (count max_memory : Nat) : Nat × Nat :=
  cpLoop (constrainedK count) (constrainedSizeClaim count) max_memory CP_FUEL 8 (0, 0)

/-! ### Invariants (spec section 3) -/

/-- Invariant (I4): the buffer holds exactly the `k * b` hash-table bytes
followed by the `ceil(2^b / 8)` bit-vector bytes. -/
def BuffersSized (bf : hibp_bloom_filter) : Prop :=
  bf.buffer.length =
    bf.n_hash_functions * bf.log2_bits + (2 ^ bf.log2_bits + 7) / 8

/-- Invariant (I3): every byte of the hash-function table (the first
`k * b` buffer bytes) is a digest bit-index, i.e. `< 160`. -/
def HashIndicesInRange (bf : hibp_bloom_filter) : Prop :=
  ∀ x ∈ bf.buffer.take (bf.n_hash_functions * bf.log2_bits), x < SHA1_BITS

instance (bf : hibp_bloom_filter) : Decidable (BuffersSized bf) := by
  unfold BuffersSized; infer_instance

instance (bf : hibp_bloom_filter) : Decidable (HashIndicesInRange bf) := by
  unfold HashIndicesInRange; infer_instance

/-! ### List and bit helpers -/

theorem getD_set_ne (l : List Nat) {i j : Nat} (h : i ≠ j) (a : Nat) :
    (l.set i a).getD j 0 = l.getD j 0 := by
  simp [List.getD_eq_getElem?_getD, List.getElem?_set_ne h]

theorem getD_set_self (l : List Nat) {i : Nat} (h : i < l.length) (a : Nat) :
    (l.set i a).getD i 0 = a := by
  simp [List.getD_eq_getElem?_getD, List.getElem?_set_self h]

theorem and_one_testBit (x m : Nat) :
    ((x >>> m) &&& 1 != 0) = x.testBit m := by
  rw [Nat.and_one_is_mod, Nat.shiftRight_eq_div_pow, Nat.testBit_to_div_mod]
  rcases Nat.mod_two_eq_zero_or_one (x / 2 ^ m) with h | h <;> simp [h]

theorem foldl_orshift_lt (g : Nat → Nat) (hg : ∀ i, g i ≤ 1) :
    ∀ n : Nat, (List.range n).foldl (fun v i => v ||| (g i <<< i)) 0 < 2 ^ n := by
  intro n
  induction n with
  | zero => simp
  | succ n ih =>
    rw [List.range_succ, List.foldl_append]
    simp only [List.foldl_cons, List.foldl_nil]
    apply Nat.or_lt_two_pow
    · exact lt_of_lt_of_le ih (Nat.pow_le_pow_right (by norm_num) (Nat.le_succ n))
    · have h1 : g n <<< n ≤ 1 <<< n := by
        rw [Nat.shiftLeft_eq, Nat.shiftLeft_eq]
        exact Nat.mul_le_mul_right _ (hg n)
      have h2 : (1 : Nat) <<< n = 2 ^ n := Nat.one_shiftLeft n
      have h3 : (2 : Nat) ^ n < 2 ^ (n + 1) := by
        have := Nat.pow_lt_pow_succ (a := 2) (by norm_num) (n := n)
        exact this
      omega

theorem evalBit_le_one (bf : hibp_bloom_filter) (k : Nat) (sha : List Nat) (i : Nat) :
    evalBit bf k sha i ≤ 1 := by
  unfold evalBit
  rw [Nat.and_one_is_mod]
  exact Nat.le_of_lt_succ (Nat.mod_lt _ (by norm_num))

/-- `eval_nth_hash_function` always returns a value `< 2 ^ log2_bits`
(the `assert` at the end of the C function). -/
theorem eval_lt (bf : hibp_bloom_filter) (k : Nat) (sha : List Nat) :
    eval_nth_hash_function bf k sha < 2 ^ bf.log2_bits :=
  foldl_orshift_lt _ (evalBit_le_one bf k sha) _

/-- `eval_nth_hash_function` only reads buffer bytes in the hash-table
region, so buffers agreeing there evaluate identically. -/
theorem eval_congr_low (n b : Nat) (buf1 buf2 sha : List Nat) (k : Nat) (hk : k < n)
    (h : ∀ idx, idx < n * b → buf1.getD idx 0 = buf2.getD idx 0) :
    eval_nth_hash_function ⟨n, b, buf1⟩ k sha =
      eval_nth_hash_function ⟨n, b, buf2⟩ k sha := by
  unfold eval_nth_hash_function
  apply List.foldl_ext
  intro v i hi
  have hi' : i < b := List.mem_range.mp hi
  have hidx : k * b + i < n * b := by
    have h1 : k * b + i < (k + 1) * b := by
      have : (k + 1) * b = k * b + b := by ring
      omega
    have h2 : (k + 1) * b ≤ n * b := Nat.mul_le_mul_right b hk
    omega
  simp only [evalBit, evalIndex]
  rw [h _ hidx]

theorem insertStep_length (n b : Nat) (sha buf : List Nat) (i : Nat) :
    (insertStep n b sha buf i).length = buf.length := by
  simp [insertStep]

theorem insertFold_length (n b : Nat) (sha : List Nat) (L : List Nat) :
    ∀ buf : List Nat, (L.foldl (insertStep n b sha) buf).length = buf.length := by
  induction L with
  | nil => intro buf; rfl
  | cons i L ih =>
    intro buf
    rw [List.foldl_cons, ih, insertStep_length]

theorem insertStep_low (n b : Nat) (sha buf : List Nat) (i idx : Nat) (hidx : idx < n * b) :
    (insertStep n b sha buf i).getD idx 0 = buf.getD idx 0 := by
  unfold insertStep
  apply getD_set_ne
  omega

theorem insertFold_low (n b : Nat) (sha : List Nat) (L : List Nat) :
    ∀ (buf : List Nat) (idx : Nat), idx < n * b →
      (L.foldl (insertStep n b sha) buf).getD idx 0 = buf.getD idx 0 := by
  induction L with
  | nil => intro buf idx _; rfl
  | cons i L ih =>
    intro buf idx hidx
    rw [List.foldl_cons, ih _ _ hidx, insertStep_low _ _ _ _ _ _ hidx]

theorem insertStep_mono (n b : Nat) (sha buf : List Nat) (i idx m : Nat)
    (hbit : (buf.getD idx 0).testBit m = true) :
    ((insertStep n b sha buf i).getD idx 0).testBit m = true := by
  unfold insertStep
  by_cases hoff :
      n * b + eval_nth_hash_function ⟨n, b, buf⟩ i sha / 8 = idx
  · rw [← hoff] at hbit ⊢
    by_cases hlen : n * b + eval_nth_hash_function ⟨n, b, buf⟩ i sha / 8 < buf.length
    · rw [getD_set_self _ hlen, Nat.testBit_or, hbit, Bool.true_or]
    · rw [List.set_eq_of_length_le (Nat.le_of_not_lt hlen)]
      exact hbit
  · rw [getD_set_ne _ hoff]
    exact hbit

theorem insertFold_mono (n b : Nat) (sha : List Nat) (L : List Nat) :
    ∀ (buf : List Nat) (idx m : Nat),
      (buf.getD idx 0).testBit m = true →
      ((L.foldl (insertStep n b sha) buf).getD idx 0).testBit m = true := by
  induction L with
  | nil => intro buf idx m h; exact h
  | cons i L ih =>
    intro buf idx m h
    rw [List.foldl_cons]
    exact ih _ _ _ (insertStep_mono _ _ _ _ _ _ _ h)

/-- After the insertion loop runs over `L`, for every `i ∈ L` the bit
addressed by hash function `i` (evaluated on the starting buffer) is set. -/
theorem insertFold_sets (n b : Nat) (sha : List Nat) (L : List Nat) :
    ∀ buf : List Nat,
      buf.length = n * b + (2 ^ b + 7) / 8 →
      (∀ i ∈ L, i < n) →
      ∀ i ∈ L,
        ((L.foldl (insertStep n b sha) buf).getD
            (n * b + eval_nth_hash_function ⟨n, b, buf⟩ i sha / 8) 0).testBit
          (eval_nth_hash_function ⟨n, b, buf⟩ i sha % 8) = true := by
  induction L with
  | nil => intro buf _ _ i hi; exact absurd hi (List.not_mem_nil i)
  | cons j L ih =>
    intro buf hlen hmem i hi
    rw [List.foldl_cons]
    rcases List.mem_cons.mp hi with rfl | hi'
    · -- the head step writes the bit, the tail of the loop only adds bits
      apply insertFold_mono
      have hk := eval_lt ⟨n, b, buf⟩ i sha
      simp only at hk
      have hoff : n * b + eval_nth_hash_function ⟨n, b, buf⟩ i sha / 8 < buf.length := by
        rw [hlen]
        omega
      unfold insertStep
      rw [getD_set_self _ hoff, Nat.testBit_or]
      have : ((1 : Nat) <<< (eval_nth_hash_function ⟨n, b, buf⟩ i sha % 8)).testBit
          (eval_nth_hash_function ⟨n, b, buf⟩ i sha % 8) = true := by
        rw [Nat.testBit_shiftLeft]
        simp [Nat.testBit_to_div_mod]
      rw [this, Bool.or_true]
    · have hlen1 : (insertStep n b sha buf j).length = buf.length :=
        insertStep_length n b sha buf j
      have hlow : ∀ idx, idx < n * b →
          (insertStep n b sha buf j).getD idx 0 = buf.getD idx 0 :=
        fun idx hidx => insertStep_low n b sha buf j idx hidx
      have hrec := ih (insertStep n b sha buf j) (by rw [hlen1, hlen])
        (fun x hx => hmem x (List.mem_cons_of_mem _ hx)) i hi'
      rwa [eval_congr_low n b (insertStep n b sha buf j) buf sha i (hmem i hi) hlow]
        at hrec

theorem queryBit_true_iff (n b : Nat) (buf : List Nat) (k : Nat) :
    (queryBit n b buf k != 0) = (buf.getD (n * b + k / 8) 0).testBit (k % 8) := by
  unfold queryBit
  exact and_one_testBit _ _

/-- `B` refines `A` after some inserts: same parameters, same buffer length,
identical hash-table region, and every set bit of `A` still set in `B`. -/
def Carries (A B : hibp_bloom_filter) : Prop :=
  B.n_hash_functions = A.n_hash_functions ∧
  B.log2_bits = A.log2_bits ∧
  B.buffer.length = A.buffer.length ∧
  (∀ idx, idx < A.n_hash_functions * A.log2_bits →
      B.buffer.getD idx 0 = A.buffer.getD idx 0) ∧
  (∀ idx m, (A.buffer.getD idx 0).testBit m = true →
      (B.buffer.getD idx 0).testBit m = true)

theorem carries_refl (A : hibp_bloom_filter) : Carries A A :=
  ⟨rfl, rfl, rfl, fun _ _ => rfl, fun _ _ h => h⟩

theorem carries_trans {A B C : hibp_bloom_filter} (h1 : Carries A B) (h2 : Carries B C) :
    Carries A C := by
  obtain ⟨hn1, hb1, hl1, hlow1, hbit1⟩ := h1
  obtain ⟨hn2, hb2, hl2, hlow2, hbit2⟩ := h2
  refine ⟨hn2.trans hn1, hb2.trans hb1, hl2.trans hl1, ?_, ?_⟩
  · intro idx hidx
    rw [hlow2 idx (by rw [hn1, hb1]; exact hidx), hlow1 idx hidx]
  · intro idx m h
    exact hbit2 idx m (hbit1 idx m h)

theorem insert_carries (F : hibp_bloom_filter) (d : List Nat) :
    Carries F (hibp_bf_insert_sha1 F d) := by
  refine ⟨rfl, rfl, ?_, ?_, ?_⟩
  · exact insertFold_length _ _ _ _ _
  · intro idx hidx
    exact insertFold_low _ _ _ _ _ _ hidx
  · intro idx m h
    exact insertFold_mono _ _ _ _ _ _ _ h

theorem foldl_insert_carries (F : hibp_bloom_filter) (ds : List (List Nat)) :
    Carries F (ds.foldl hibp_bf_insert_sha1 F) := by
  induction ds generalizing F with
  | nil => exact carries_refl F
  | cons d ds ih =>
    rw [List.foldl_cons]
    exact carries_trans (insert_carries F d) (ih (hibp_bf_insert_sha1 F d))

/-- Claim C1.  No false negatives: for a filter whose buffers have the sizes
invariant (I4) prescribes, once a 20-byte digest has been inserted, querying
it returns true, and it keeps returning true after any further sequence of
inserts of arbitrary digests. -/
theorem insert_then_query_true (bf : hibp_bloom_filter) (d : List Nat)
    (hsz : BuffersSized bf) (_hd : d.length = 20) (ds : List (List Nat)) :
    hibp_bf_query_sha1 (ds.foldl hibp_bf_insert_sha1 (hibp_bf_insert_sha1 bf d)) d
      = true := by
  set n := bf.n_hash_functions with hn
  set b := bf.log2_bits with hb
  set F1 := hibp_bf_insert_sha1 bf d with hF1
  set G := ds.foldl hibp_bf_insert_sha1 F1 with hG
  have hc : Carries F1 G := foldl_insert_carries F1 ds
  obtain ⟨hcn, hcb, hcl, hclow, hcbit⟩ := hc
  have hF1n : F1.n_hash_functions = n := rfl
  have hF1b : F1.log2_bits = b := rfl
  -- the hash-table region of G agrees with bf
  have hGlow : ∀ idx, idx < n * b → G.buffer.getD idx 0 = bf.buffer.getD idx 0 := by
    intro idx hidx
    rw [hclow idx (by rw [hF1n, hF1b]; exact hidx)]
    exact insertFold_low _ _ _ _ _ _ hidx
  -- query over G
  rw [hibp_bf_query_sha1]
  rw [List.all_eq_true]
  intro i hi
  rw [hcn, hF1n] at hi ⊢
  rw [hcb, hF1b]
  have hi' : i < n := List.mem_range.mp hi
  -- eval on G equals eval on bf
  have hGeta : G = ⟨G.n_hash_functions, G.log2_bits, G.buffer⟩ := rfl
  have hGnb : G.n_hash_functions = n := by rw [hcn, hF1n]
  have hGbb : G.log2_bits = b := by rw [hcb, hF1b]
  have heval : eval_nth_hash_function G i d = eval_nth_hash_function bf i d := by
    calc eval_nth_hash_function G i d
        = eval_nth_hash_function ⟨n, b, G.buffer⟩ i d := by
          rw [hGeta]; rw [hGnb, hGbb]
      _ = eval_nth_hash_function ⟨n, b, bf.buffer⟩ i d :=
          eval_congr_low n b G.buffer bf.buffer d i hi' hGlow
      _ = eval_nth_hash_function bf i d := by rw [hn, hb]
  rw [heval]
  -- the bit was set by the first insert and is carried to G
  have hset := insertFold_sets n b d (List.range n) bf.buffer hsz
    (fun x hx => List.mem_range.mp hx) i hi
  have hset' : ((F1.buffer).getD
      (n * b + eval_nth_hash_function bf i d / 8) 0).testBit
      (eval_nth_hash_function bf i d % 8) = true := by
    have hbfeta : (⟨n, b, bf.buffer⟩ : hibp_bloom_filter) = bf := by
      rw [hn, hb]
    rw [hbfeta] at hset
    exact hset
  have hbitG := hcbit _ _ hset'
  rw [queryBit_true_iff]
  exact hbitG

/-- Witness for C1 at a concrete filter, digest and follow-up insert. -/
theorem insert_then_query_true_witness :
    BuffersSized ⟨1, 1, [0, 0]⟩ ∧ (List.replicate 20 0).length = 20 ∧
    hibp_bf_query_sha1
      ([List.replicate 20 1].foldl hibp_bf_insert_sha1
        (hibp_bf_insert_sha1 ⟨1, 1, [0, 0]⟩ (List.replicate 20 0)))
      (List.replicate 20 0) = true :=
  ⟨by decide, by decide,
    insert_then_query_true ⟨1, 1, [0, 0]⟩ (List.replicate 20 0) (by decide) (by decide)
      [List.replicate 20 1]⟩

theorem getD_take (d : List Nat) (n j : Nat) (h : j < n) :
    (d.take n).getD j 0 = d.getD j 0 := by
  simp [List.getD_eq_getElem?_getD, List.getElem?_take, h]

/-- Under invariants (I3) and (I4), every digest byte `eval_nth_hash_function`
reads lies in the first 20 bytes, so the digest beyond its 20 bytes is
irrelevant. -/
theorem eval_take20 (bf : hibp_bloom_filter) (k : Nat) (d : List Nat)
    (hk : k < bf.n_hash_functions) (h3 : HashIndicesInRange bf)
    (hsz : bf.n_hash_functions * bf.log2_bits ≤ bf.buffer.length) :
    eval_nth_hash_function bf k d = eval_nth_hash_function bf k (d.take 20) := by
  unfold eval_nth_hash_function
  apply List.foldl_ext
  intro v i hi
  have hi' : i < bf.log2_bits := List.mem_range.mp hi
  have hpos : k * bf.log2_bits + i < bf.n_hash_functions * bf.log2_bits := by
    have h1 : (k + 1) * bf.log2_bits ≤ bf.n_hash_functions * bf.log2_bits :=
      Nat.mul_le_mul_right _ hk
    have h2 : (k + 1) * bf.log2_bits = k * bf.log2_bits + bf.log2_bits := by ring
    omega
  have hplen : k * bf.log2_bits + i < bf.buffer.length := lt_of_lt_of_le hpos hsz
  have hget : bf.buffer.getD (k * bf.log2_bits + i) 0 =
      bf.buffer[k * bf.log2_bits + i] := by
    simp [List.getD_eq_getElem?_getD, List.getElem?_eq_getElem hplen]
  have hidxval : evalIndex bf k i < SHA1_BITS := by
    show bf.buffer.getD (k * bf.log2_bits + i) 0 < SHA1_BITS
    rw [hget]
    apply h3
    have hlt : k * bf.log2_bits + i <
        (bf.buffer.take (bf.n_hash_functions * bf.log2_bits)).length := by
      simp only [List.length_take]
      omega
    have heq : (bf.buffer.take (bf.n_hash_functions * bf.log2_bits))[k * bf.log2_bits + i]
        = bf.buffer[k * bf.log2_bits + i] := List.getElem_take _
    rw [← heq]
    exact List.getElem_mem hlt
  have hdiv : evalIndex bf k i / 8 < 20 := by
    have h160 : evalIndex bf k i < 160 := hidxval
    omega
  simp only [evalBit]
  rw [getD_take _ _ _ hdiv]

/-- Claim C10.  Safety of the hashing primitive and of insert/query: under
the filter invariants, every hash evaluation is `< 2 ^ log2_bits` and reads
only the 20 digest bytes; insertion touches only the bit-vector region of
the buffer and preserves its length (and, like query, is a total function:
neither can fail). -/
theorem hashing_safety (bf : hibp_bloom_filter) (d : List Nat)
    (h3 : HashIndicesInRange bf) (hsz : BuffersSized bf)
    (_hb1 : 1 ≤ bf.log2_bits) (_hbmax : bf.log2_bits ≤ LOG2_BITS_MAX) :
    (∀ i, eval_nth_hash_function bf i d < 2 ^ bf.log2_bits) ∧
    (∀ i, i < bf.n_hash_functions →
        eval_nth_hash_function bf i d = eval_nth_hash_function bf i (d.take 20)) ∧
    ((hibp_bf_insert_sha1 bf d).buffer.length = bf.buffer.length) ∧
    (∀ idx, idx < bf.n_hash_functions * bf.log2_bits →
        (hibp_bf_insert_sha1 bf d).buffer.getD idx 0 = bf.buffer.getD idx 0) := by
  refine ⟨fun i => eval_lt bf i d, fun i hi => ?_, ?_, fun idx hidx => ?_⟩
  · have hlen : bf.buffer.length =
        bf.n_hash_functions * bf.log2_bits + (2 ^ bf.log2_bits + 7) / 8 := hsz
    exact eval_take20 bf i d hi h3 (by rw [hlen]; exact Nat.le_add_right _ _)
  · exact insertFold_length _ _ _ _ _
  · exact insertFold_low _ _ _ _ _ _ hidx

/-- Witness for C10 at a concrete well-formed filter and digest. -/
theorem hashing_safety_witness :
    HashIndicesInRange ⟨1, 1, [5, 0]⟩ ∧ BuffersSized ⟨1, 1, [5, 0]⟩ ∧
    1 ≤ (1 : Nat) ∧ (1 : Nat) ≤ LOG2_BITS_MAX ∧
    (∀ i, eval_nth_hash_function ⟨1, 1, [5, 0]⟩ i (List.replicate 20 9) < 2 ^ 1) :=
  ⟨by decide, by decide, by decide, by decide,
    (hashing_safety ⟨1, 1, [5, 0]⟩ (List.replicate 20 9) (by decide) (by decide)
      (by decide) (by decide)).1⟩

/-- A trivial conforming PRNG for concrete instantiations: always returns 0,
which lies in `[0, upper)` for every `upper ≥ 1`. -/
def zeroPrng : Unit → Nat → Nat × Unit := fun s _ => (0, s)

/-- Counterexample to claim C4 as stated: `bf_new(1, 0)` does **not** return
`ParamError`; `compute_buffer_size` never tests `log2_bits == 0`, so
construction succeeds with an empty hash table and a one-byte bit vector
(the repository's own tests exercise `bf_new(1, 0)` and expect `HIBP_OK`). -/
theorem new_prng_accepts_b_zero :
    hibp_bf_new_prng 1 0 zeroPrng () = (HIBP_OK, some ⟨1, 0, [0]⟩) ∧
    (hibp_bf_new_prng 1 0 zeroPrng ()).1 ≠ HIBP_E_INVAL := by
  decide

/-- Claim C4 (amended).  Parameter validation at construction: `k = 0`
yields `ParamError` for every `b`; for `k ≥ 1`, `b > B_MAX` yields `TooBig`,
as does `k > K_MAX`; in each error case no filter is produced (and the C
code returns before `calloc`, so no allocation is outstanding).  However
`b = 0` is **not** rejected: for `1 ≤ k ≤ K_MAX`, `bf_new(k, 0)` succeeds
and yields a filter with an empty hash-function table and a single
bit-vector byte. -/
theorem new_prng_validation {S : Type} (prng : S → Nat → Nat × S) (s : S) (k b : Nat) :
    (hibp_bf_new_prng 0 b prng s = (HIBP_E_INVAL, none)) ∧
    (1 ≤ k → LOG2_BITS_MAX < b → hibp_bf_new_prng k b prng s = (HIBP_E_2BIG, none)) ∧
    (1 ≤ k → N_HASH_FUNCTIONS_MAX < k →
      hibp_bf_new_prng k b prng s = (HIBP_E_2BIG, none)) ∧
    (1 ≤ k → k ≤ N_HASH_FUNCTIONS_MAX →
      hibp_bf_new_prng k 0 prng s = (HIBP_OK, some ⟨k, 0, [0]⟩)) := by
  refine ⟨?_, ?_, ?_, ?_⟩
  · simp [hibp_bf_new_prng, compute_buffer_size]
  · intro hk hb
    have hk0 : k ≠ 0 := by omega
    simp [hibp_bf_new_prng, compute_buffer_size, hk0, hb]
  · intro hk hkmax
    have hk0 : k ≠ 0 := by omega
    simp [hibp_bf_new_prng, compute_buffer_size, hk0, hkmax]
  · intro hk hkmax
    have hk0 : k ≠ 0 := by omega
    have hb1 : ¬ (LOG2_BITS_MAX < 0) := by simp
    have hb2 : ¬ (N_HASH_FUNCTIONS_MAX < k) := by omega
    have hb3 : ¬ (SIZE_MAX / k < 0) := by simp
    simp [hibp_bf_new_prng, compute_buffer_size, hk0, hb1, hb2, hb3, genBlocks]

/-- Witness for the amended C4 at concrete parameters. -/
theorem new_prng_validation_witness :
    hibp_bf_new_prng 0 3 zeroPrng () = (HIBP_E_INVAL, none) ∧
    hibp_bf_new_prng 2 70 zeroPrng () = (HIBP_E_2BIG, none) ∧
    hibp_bf_new_prng 2 0 zeroPrng () = (HIBP_OK, some ⟨2, 0, [0]⟩) :=
  ⟨(new_prng_validation zeroPrng () 2 3).1,
   (new_prng_validation zeroPrng () 2 70).2.1 (by norm_num) (by decide),
   (new_prng_validation zeroPrng () 2 0).2.2.2 (by norm_num) (by decide)⟩

/-- Claim C6 (code evaluation at the failing input).  For `b = 64` — the
bit width of `size_t`, where `2^b` overflows — `compute_buffer_size` does
**not** return `TooBig`: the guard only rejects `b > LOG2_BITS_MAX = 64`,
after which `(size_t)1 << 64` is undefined behaviour in C (modelled as the
mod-`2^64` truncation to `0`), so the function returns `HIBP_OK` with a
64-byte buffer even though the untruncated size would be `64 + 2^61`
bytes. -/
theorem compute_buffer_size_b64_truncates :
    compute_buffer_size 1 64 = (HIBP_OK, 64) ∧
    (compute_buffer_size 1 64).1 ≠ HIBP_E_2BIG ∧
    64 < 64 * 1 + (2 ^ 64 + 7) / 8 := by
  decide

/-- Claim C8 (code evaluation at the failing inputs).  `hibp_sha1_hex2bin`
reads `hex[i]` and `hex[i+1]` for output byte `i` (overlapping windows over
the first 21 characters) instead of `hex[2i]` and `hex[2i+1]`:

* decoding the 40-hex-digit string `"000102...13"` yields
  `[0, 0, 1, 16, ...]` — output byte 1 is `0x00`, not the `0x01` the
  claimed decoding produces;
* a string whose first 21 characters are hex digits is accepted
  (`HIBP_OK`) even when characters 21..39 are not hex digits. -/
theorem hex2bin_overlapping_nibbles :
    hibp_sha1_hex2bin
      [48, 48, 48, 49, 48, 50, 48, 51, 48, 52, 48, 53, 48, 54, 48, 55, 48, 56,
       48, 57, 48, 97, 48, 98, 48, 99, 48, 100, 48, 101, 48, 102, 49, 48, 49,
       49, 49, 50, 49, 51]
      = (HIBP_OK, some [0, 0, 1, 16, 2, 32, 3, 48, 4, 64, 5, 80, 6, 96, 7,
                        112, 8, 128, 9, 144]) ∧
    hibp_sha1_hex2bin (List.replicate 21 48 ++ List.replicate 19 122)
      = (HIBP_OK, some (List.replicate 20 0)) := by
  decide

/-! ### The hash-family generator produces truncated permutations -/

/-- The PRNG contract: `prng(ctx, upper)` returns a value in `[0, upper)`
whenever `upper ≥ 1`. -/
def PrngOK {S : Type} (prng : S → Nat → Nat × S) : Prop :=
  ∀ s u, 1 ≤ u → (prng s u).1 < u

/-- `p` enumerates a permutation of the digit positions `0 .. 159` on the
index range `0 .. 159`. -/
def PermOn (p : Nat → Nat) : Prop :=
  ((List.range SHA1_BITS).map p).Perm (List.range SHA1_BITS)

/-- Swapping two in-range entries of a list yields a permutation of it. -/
theorem perm_set_set_swap (l : List Nat) (i j : Nat) (hi : i < l.length)
    (hj : j < l.length) :
    ((l.set i (l.getD j 0)).set j (l.getD i 0)).Perm l := by
  have hgi : l.getD i 0 = l[i] := by
    simp [List.getD_eq_getElem?_getD, List.getElem?_eq_getElem hi]
  have hgj : l.getD j 0 = l[j] := by
    simp [List.getD_eq_getElem?_getD, List.getElem?_eq_getElem hj]
  rw [List.perm_iff_count]
  intro a
  have hj' : j < (l.set i (l.getD j 0)).length := by simpa using hj
  rw [List.count_set _ _ _ _ hj', List.count_set _ _ _ _ hi]
  have hmid : (l.set i (l.getD j 0))[j] = if i = j then l.getD j 0 else l[j] :=
    List.getElem_set hj'
  have hmid' : (l.set i (l.getD j 0))[j] = l[j] := by
    rw [hmid, hgj]
    exact ite_self _
  rw [hmid', hgi, hgj]
  have hci : l[i] = a → 1 ≤ List.count a l := fun h =>
    List.count_pos_iff.mpr (h ▸ List.getElem_mem hi)
  have hcj : l[j] = a → 1 ≤ List.count a l := fun h =>
    List.count_pos_iff.mpr (h ▸ List.getElem_mem hj)
  by_cases hia : l[i] = a <;> by_cases hja : l[j] = a <;>
    simp [hia, hja] <;> omega

/-- The swap of `permutation[i]` and `permutation[j]`, viewed through
`List.range`, is the corresponding two-entry swap of the listed values. -/
theorem map_swapPerm_eq_set_set (p : Nat → Nat) (i j n : Nat) (_hi : i < n) (_hj : j < n) :
    (List.range n).map (swapPerm p i j) =
      (((List.range n).map p).set i (p j)).set j (p i) := by
  apply List.ext_getElem
  · simp
  · intro x h1 h2
    have hx : x < n := by simpa using h1
    have hxm : x < ((List.range n).map p).length := by simpa using hx
    have hxs : x < (((List.range n).map p).set i (p j)).length := by simpa using hx
    rw [List.getElem_map, List.getElem_range]
    rw [List.getElem_set (h := h2), List.getElem_set (h := hxs), List.getElem_map,
      List.getElem_range]
    simp only [swapPerm]
    by_cases hxj : x = j
    · simp [hxj]
    · have hjx : ¬ (j = x) := fun h => hxj h.symm
      by_cases hxi : x = i
      · have hij : ¬ (i = j) := fun h => hxj (hxi.trans h)
        have hji : ¬ (j = i) := fun h => hij h.symm
        simp [hxi, hxj, hjx, hij, hji]
      · have hix : ¬ (i = x) := fun h => hxi h.symm
        simp [hxi, hxj, hjx, hix]

theorem permOn_swapPerm (p : Nat → Nat) (i j : Nat) (hi : i < SHA1_BITS)
    (hj : j < SHA1_BITS) (hp : PermOn p) : PermOn (swapPerm p i j) := by
  unfold PermOn at hp ⊢
  rw [map_swapPerm_eq_set_set p i j _ hi hj]
  have hi' : i < ((List.range SHA1_BITS).map p).length := by simpa using hi
  have hj' : j < ((List.range SHA1_BITS).map p).length := by simpa using hj
  have hgi : ((List.range SHA1_BITS).map p).getD i 0 = p i := by
    simp [List.getD_eq_getElem?_getD, List.getElem?_eq_getElem hi',
      List.getElem_map, List.getElem_range]
  have hgj : ((List.range SHA1_BITS).map p).getD j 0 = p j := by
    simp [List.getD_eq_getElem?_getD, List.getElem?_eq_getElem hj',
      List.getElem_map, List.getElem_range]
  have := perm_set_set_swap ((List.range SHA1_BITS).map p) i j hi' hj'
  rw [hgi, hgj] at this
  exact this.trans hp

theorem foldl_fyStep_permOn {S : Type} (prng : S → Nat → Nat × S)
    (hprng : PrngOK prng) (L : List Nat) (hL : ∀ i ∈ L, i < SHA1_BITS) :
    ∀ (p : Nat → Nat) (s : S), PermOn p → PermOn ((L.foldl (fyStep prng) (p, s)).1) := by
  induction L with
  | nil => intro p s hp; exact hp
  | cons i L ih =>
    intro p s hp
    rw [List.foldl_cons]
    have hi : i < SHA1_BITS := hL i (List.mem_cons_self i L)
    have hj : (prng s (i + 1)).1 < SHA1_BITS :=
      lt_of_lt_of_le (hprng s (i + 1) (by omega)) (by omega)
    exact ih (fun x hx => hL x (List.mem_cons_of_mem _ hx)) _ _
      (permOn_swapPerm p i _ hi hj hp)

theorem fisherYates_permOn {S : Type} (prng : S → Nat → Nat × S)
    (hprng : PrngOK prng) (p : Nat → Nat) (s : S) (hp : PermOn p) :
    PermOn (fisherYates prng p s).1 := by
  unfold fisherYates
  apply foldl_fyStep_permOn prng hprng _ _ p s hp
  intro i hi
  rw [List.mem_reverse] at hi
  rw [List.mem_range'] at hi
  obtain ⟨x, hx, rfl⟩ := hi
  unfold SHA1_BITS HIBP_SHA1_BYTES at hx ⊢
  omega

/-- The shape claim C9 makes about the hash-function table: it is a
sequence of blocks, each of which is (a prefix of) the listing of a
permutation of the 160 digest bit-positions; only the final block may be
truncated.  In particular all 160 positions appear before any index
repeats. -/
inductive PermBlocks : List Nat → Prop where
  | last : ∀ (p l : List Nat), p.Perm (List.range SHA1_BITS) →
      (∃ t, l ++ t = p) → PermBlocks l
  | step : ∀ (p rest : List Nat), p.Perm (List.range SHA1_BITS) →
      PermBlocks rest → PermBlocks (p ++ rest)

theorem permBlocks_nil : PermBlocks [] :=
  PermBlocks.last (List.range SHA1_BITS) [] (List.Perm.refl _) ⟨List.range SHA1_BITS, rfl⟩

theorem permBlocks_lt {l : List Nat} (hb : PermBlocks l) : ∀ x ∈ l, x < SHA1_BITS := by
  induction hb with
  | last p l hp hpre =>
    intro x hx
    obtain ⟨t, ht⟩ := hpre
    have hxp : x ∈ p := ht ▸ List.mem_append_left t hx
    have : x ∈ List.range SHA1_BITS := hp.mem_iff.mp hxp
    exact List.mem_range.mp this
  | step p rest hp _ ih =>
    intro x hx
    rcases List.mem_append.mp hx with hxp | hxr
    · exact List.mem_range.mp (hp.mem_iff.mp hxp)
    · exact ih x hxr

theorem permBlocks_nodup {l : List Nat} (hb : PermBlocks l)
    (hlen : l.length ≤ SHA1_BITS) : l.Nodup := by
  cases hb with
  | last p l hp hpre =>
    obtain ⟨t, ht⟩ := hpre
    have hsub : l.Sublist p := ht ▸ List.sublist_append_left l t
    exact hsub.nodup (hp.nodup_iff.mpr (List.nodup_range _))
  | step p rest hp hrest =>
    have hlp : p.length = SHA1_BITS := by rw [hp.length_eq, List.length_range]
    have hrest0 : rest = [] := by
      rw [List.length_append, hlp] at hlen
      exact List.length_eq_zero.mp (by omega)
    subst hrest0
    rw [List.append_nil]
    exact hp.nodup_iff.mpr (List.nodup_range _)

/-- The generation loop produces `rem` bytes forming `PermBlocks`. -/
theorem genBlocks_permBlocks {S : Type} (prng : S → Nat → Nat × S)
    (hprng : PrngOK prng) :
    ∀ (fuel rem : Nat) (p : Nat → Nat) (s : S), rem ≤ fuel → PermOn p →
      PermBlocks (genBlocks prng fuel rem p s).1 ∧
        (genBlocks prng fuel rem p s).1.length = rem := by
  intro fuel
  induction fuel with
  | zero =>
    intro rem p s hle _
    have : rem = 0 := by omega
    subst this
    exact ⟨permBlocks_nil, rfl⟩
  | succ fuel ih =>
    intro rem p s hle hp
    match rem with
    | 0 => exact ⟨permBlocks_nil, rfl⟩
    | r + 1 =>
      rw [genBlocks]
      have hp2 : PermOn (fisherYates prng p s).1 := fisherYates_permOn prng hprng p s hp
      -- the listed permutation
      set P := (List.range SHA1_BITS).map (fisherYates prng p s).1 with hP
      have hPlen : P.length = SHA1_BITS := by simp [hP]
      have hblock : blockBytes (fisherYates prng p s).1 (min (r + 1) SHA1_BITS) =
          P.take (min (r + 1) SHA1_BITS) := by
        unfold blockBytes
        rw [hP, ← List.map_take, List.take_range]
        have hmm : min (r + 1) SHA1_BITS ⊓ SHA1_BITS = min (r + 1) SHA1_BITS := by
          omega
        rw [hmm]
      have hS : 0 < SHA1_BITS := by norm_num [SHA1_BITS, HIBP_SHA1_BYTES]
      by_cases hsmall : r + 1 ≤ SHA1_BITS
      · have hmin : min (r + 1) SHA1_BITS = r + 1 := by omega
        have hrest : r + 1 - min (r + 1) SHA1_BITS = 0 := by omega
        rw [hrest]
        have hnil : (genBlocks prng fuel 0 (fisherYates prng p s).1
            (fisherYates prng p s).2).1 = [] := by
          rw [genBlocks]
        constructor
        · simp only [hnil, List.append_nil]
          refine PermBlocks.last P _ (by rw [hP]; exact hp2) ?_
          rw [hblock]
          exact ⟨P.drop (min (r + 1) SHA1_BITS), List.take_append_drop _ _⟩
        · simp only [hnil, List.append_nil, hblock, List.length_take]
          omega
      · have hmin : min (r + 1) SHA1_BITS = SHA1_BITS := by omega
        have hrec := ih (r + 1 - min (r + 1) SHA1_BITS) (fisherYates prng p s).1
          (fisherYates prng p s).2 (by omega) hp2
        constructor
        · have hfull : blockBytes (fisherYates prng p s).1 (min (r + 1) SHA1_BITS) = P := by
            rw [hblock, hmin, ← hPlen, List.take_length]
          rw [hfull]
          exact PermBlocks.step P _ (by rw [hP]; exact hp2) hrec.1
        · rw [List.length_append, hrec.2, hblock, List.length_take]
          omega

theorem permOn_id : PermOn (fun i => i) := by
  unfold PermOn
  rw [List.map_id']

/-- Shared description of a successfully constructed filter: the parameters
are stored verbatim and the first `k * b` buffer bytes are the generated
permutation blocks. -/
theorem new_prng_buffer_spec {S : Type} (prng : S → Nat → Nat × S) (s : S)
    (k b : Nat) (F : hibp_bloom_filter) (hprng : PrngOK prng)
    (hok : hibp_bf_new_prng k b prng s = (HIBP_OK, some F)) :
    F.n_hash_functions = k ∧ F.log2_bits = b ∧
    PermBlocks (F.buffer.take (k * b)) ∧ (F.buffer.take (k * b)).length = k * b := by
  unfold hibp_bf_new_prng at hok
  simp only [] at hok
  split at hok
  · exact absurd (congrArg Prod.snd hok) (by simp)
  · have hF : F = ⟨k, b,
        (genBlocks prng (b * k) (b * k) (fun i => i) s).1 ++
          List.replicate ((compute_buffer_size k b).2 - b * k) 0⟩ := by
      have := congrArg Prod.snd hok
      simp only [] at this
      exact (Option.some.injEq _ _).mp this |>.symm
    subst hF
    have hgen := genBlocks_permBlocks prng hprng (b * k) (b * k) (fun i => i) s
      (Nat.le_refl _) permOn_id
    have htake : ((genBlocks prng (b * k) (b * k) (fun i => i) s).1 ++
        List.replicate ((compute_buffer_size k b).2 - b * k) 0).take (k * b) =
          (genBlocks prng (b * k) (b * k) (fun i => i) s).1 := by
      have hlen : k * b = (genBlocks prng (b * k) (b * k) (fun i => i) s).1.length := by
        rw [hgen.2, Nat.mul_comm]
      rw [hlen, List.take_left]
    refine ⟨rfl, rfl, ?_, ?_⟩
    · simp only [htake]
      exact hgen.1
    · simp only [htake]
      rw [hgen.2, Nat.mul_comm]

/-- Claim C9.  Hash-family generation: for every PRNG satisfying the
contract `R(u) < u`, a successful `hibp_bf_new_prng` fills the `k * b`-byte
table in consecutive 160-byte blocks — each a prefix of a (Fisher-Yates
shuffled) permutation of the 160 digest bit-positions, only the last block
truncated — so all 160 bit-positions are covered before any index repeats;
and when `k * b ≤ 160` all table bytes are pairwise distinct. -/
theorem new_prng_hash_family {S : Type} (prng : S → Nat → Nat × S) (s : S)
    (k b : Nat) (F : hibp_bloom_filter) (hprng : PrngOK prng)
    (hok : hibp_bf_new_prng k b prng s = (HIBP_OK, some F)) :
    PermBlocks (F.buffer.take (k * b)) ∧
    (F.buffer.take (k * b)).length = k * b ∧
    (k * b ≤ SHA1_BITS → (F.buffer.take (k * b)).Nodup) := by
  obtain ⟨-, -, hblocks, hlen⟩ := new_prng_buffer_spec prng s k b F hprng hok
  exact ⟨hblocks, hlen, fun hle => permBlocks_nodup hblocks (by rw [hlen]; exact hle)⟩

/-- Witness for C9: a concrete successful construction (`k = 1`, `b = 1`,
the all-zero PRNG) whose one-byte table is a permutation prefix. -/
theorem new_prng_hash_family_witness :
    PermBlocks ((⟨1, 1, [1, 0]⟩ : hibp_bloom_filter).buffer.take (1 * 1)) :=
  (new_prng_hash_family zeroPrng () 1 1 ⟨1, 1, [1, 0]⟩ (fun _ _ h => h)
    (by decide)).1

theorem getD_eq_getElem (l : List Nat) (i : Nat) (h : i < l.length) :
    l.getD i 0 = l[i] := by
  simp [List.getD_eq_getElem?_getD, List.getElem?_eq_getElem h]

/-- Inserting never rewrites the hash-function table. -/
theorem insert_preserves_table (F : hibp_bloom_filter) (d : List Nat) :
    (hibp_bf_insert_sha1 F d).buffer.take (F.n_hash_functions * F.log2_bits) =
      F.buffer.take (F.n_hash_functions * F.log2_bits) := by
  have hlen : (hibp_bf_insert_sha1 F d).buffer.length = F.buffer.length :=
    insertFold_length _ _ _ _ _
  apply List.ext_getElem
  · simp [List.length_take, hlen]
  · intro idx h1 h2
    have h1' := h1
    simp only [List.length_take] at h1'
    have hidx : idx < F.n_hash_functions * F.log2_bits := by omega
    have hl1 : idx < (hibp_bf_insert_sha1 F d).buffer.length := by omega
    have hl2 : idx < F.buffer.length := by
      simp only [List.length_take] at h2
      omega
    rw [List.getElem_take, List.getElem_take]
    rw [← getD_eq_getElem _ _ hl1, ← getD_eq_getElem _ _ hl2]
    exact insertFold_low _ _ _ _ _ _ hidx

/-- Claim C7 (amended).  Invariant I3 is established by construction and
preserved by the mutating operation: every filter successfully returned by
`bf_new` / `bf_new_with_prng` (with a conforming PRNG) has all hash-table
bytes `< 160`, and insertion never changes the table (query and save do not
modify the filter at all), so the invariant holds for the filter's lifetime
— but `bf_load` does *not* re-establish it (see the counterexample). -/
theorem hash_table_invariant {S : Type} (prng : S → Nat → Nat × S) (s : S)
    (k b : Nat) (F G : hibp_bloom_filter) (d : List Nat)
    (hprng : PrngOK prng) (hok : hibp_bf_new_prng k b prng s = (HIBP_OK, some F)) :
    HashIndicesInRange F ∧
    ((hibp_bf_insert_sha1 G d).buffer.take (G.n_hash_functions * G.log2_bits) =
      G.buffer.take (G.n_hash_functions * G.log2_bits)) ∧
    (HashIndicesInRange G → HashIndicesInRange (hibp_bf_insert_sha1 G d)) := by
  obtain ⟨hn, hb, hblocks, -⟩ := new_prng_buffer_spec prng s k b F hprng hok
  refine ⟨?_, insert_preserves_table G d, ?_⟩
  · intro x hx
    rw [hn, hb] at hx
    exact permBlocks_lt hblocks x hx
  · intro hG x hx
    apply hG
    have hfields : (hibp_bf_insert_sha1 G d).n_hash_functions = G.n_hash_functions := rfl
    have hfields2 : (hibp_bf_insert_sha1 G d).log2_bits = G.log2_bits := rfl
    rw [hfields, hfields2, insert_preserves_table G d] at hx
    exact hx

/-- The constant dummy SHA-1 used in concrete instantiations (the engine
only consumes the SHA-1 interface; any 20-byte-valued function will do). -/
def constSha1 : List Nat → List Nat := fun _ => List.replicate 20 0

/-- Counterexample to C7 as stated: `hibp_bf_load_stream` accepts a stream
with valid framing and a matching checksum whose hash-table byte is `200`,
producing a filter that violates I3 — load performs no hash-index
validation. -/
theorem load_accepts_out_of_range_hash_index :
    hibp_bf_load_stream constSha1
        ([0xb1, 0x00, 0x13, 0x37] ++ [1, 0, 0, 0, 0, 0, 0, 0] ++ [3] ++
          List.replicate 20 0 ++ [200, 0, 0, 0])
      = (HIBP_OK, some ⟨1, 3, [200, 0, 0, 0]⟩) ∧
    ¬ HashIndicesInRange ⟨1, 3, [200, 0, 0, 0]⟩ := by
  decide

/-- Witness for the amended C7 at concrete inputs. -/
theorem hash_table_invariant_witness :
    HashIndicesInRange ⟨1, 1, [1, 0]⟩ ∧
    HashIndicesInRange
      (hibp_bf_insert_sha1 ⟨1, 1, [5, 0]⟩ (List.replicate 20 0)) := by
  have h := hash_table_invariant zeroPrng () 1 1 ⟨1, 1, [1, 0]⟩ ⟨1, 1, [5, 0]⟩
    (List.replicate 20 0) (fun _ _ h => h) (by decide)
  exact ⟨h.1, h.2.2 (by decide)⟩

/-! ### Little-endian 8-byte round trip -/

theorem testBit_or_foldl (h : Nat → Nat) (L : List Nat) (m : Nat) :
    ∀ a : Nat, ((L.foldl (fun acc i => acc ||| h i) a).testBit m) =
      (a.testBit m || L.any (fun i => (h i).testBit m)) := by
  induction L with
  | nil => intro a; simp
  | cons i L ih =>
    intro a
    rw [List.foldl_cons, ih, List.any_cons, Nat.testBit_or, Bool.or_assoc]

theorem le8_roundtrip (k : Nat) (hk : k < 2 ^ 64) :
    le_8_bytes_to_size_t (size_t_to_le_8_bytes k) = k := by
  apply Nat.eq_of_testBit_eq
  intro m
  have hfold : le_8_bytes_to_size_t (size_t_to_le_8_bytes k) =
      (List.range 8).foldl
        (fun size i => size ||| (((k >>> (8 * i)) % 256) <<< (8 * i))) 0 := by
    unfold le_8_bytes_to_size_t
    apply List.foldl_ext
    intro a i hi
    have hi8 : i < 8 := List.mem_range.mp hi
    have hg : (size_t_to_le_8_bytes k).getD i 0 = (k >>> (8 * i)) % 256 := by
      unfold size_t_to_le_8_bytes
      rw [getD_eq_getElem _ _ (by simp [size_t_to_le_8_bytes]; omega)]
      simp
    rw [hg]
  rw [hfold, testBit_or_foldl, Nat.zero_testBit, Bool.false_or]
  have hterm : ∀ i : Nat, (((k >>> (8 * i)) % 256) <<< (8 * i)).testBit m =
      (decide (m ≥ 8 * i) && (decide (m - 8 * i < 8) &&
        k.testBit (8 * i + (m - 8 * i)))) := by
    intro i
    have h256 : (256 : Nat) = 2 ^ 8 := by norm_num
    rw [h256, Nat.testBit_shiftLeft, Nat.testBit_mod_two_pow, Nat.testBit_shiftRight]
  by_cases hm : m < 64
  · cases htb : k.testBit m with
    | false =>
      apply List.any_eq_false.mpr
      intro i _
      rw [hterm]
      simp only [Bool.and_eq_true, decide_eq_true_eq, not_and]
      intro h1 h2 h3
      have hmi : 8 * i + (m - 8 * i) = m := by omega
      rw [hmi, htb] at h3
      exact absurd h3 (by simp)
    | true =>
      apply List.any_eq_true.mpr
      refine ⟨m / 8, List.mem_range.mpr (by omega), ?_⟩
      rw [hterm]
      have h1 : m ≥ 8 * (m / 8) := by omega
      have h2 : m - 8 * (m / 8) < 8 := by omega
      have h3 : 8 * (m / 8) + (m - 8 * (m / 8)) = m := by omega
      simp [h1, h2, h3, htb]
  · have hkm : k.testBit m = false := by
      apply Nat.testBit_lt_two_pow
      calc k < 2 ^ 64 := hk
        _ ≤ 2 ^ m := Nat.pow_le_pow_right (by norm_num) (by omega)
    rw [hkm]
    apply List.any_eq_false.mpr
    intro i hi
    have hi8 : i < 8 := List.mem_range.mp hi
    rw [hterm]
    simp only [Bool.and_eq_true, decide_eq_true_eq, not_and]
    intro h1 h2
    omega

theorem le8_bytes_lt (k : Nat) : ∀ x ∈ size_t_to_le_8_bytes k, x < 256 := by
  intro x hx
  unfold size_t_to_le_8_bytes at hx
  obtain ⟨i, -, rfl⟩ := List.mem_map.mp hx
  exact Nat.mod_lt _ (by norm_num)

theorem le8_length (k : Nat) : (size_t_to_le_8_bytes k).length = 8 := by
  simp [size_t_to_le_8_bytes]

theorem map_mod_eq_self (l : List Nat) (hb : ∀ x ∈ l, x < 256) :
    l.map (· % 256) = l := by
  induction l with
  | nil => rfl
  | cons x l ih =>
    rw [List.map_cons, Nat.mod_eq_of_lt (hb x (List.mem_cons_self x l)),
      ih (fun y hy => hb y (List.mem_cons_of_mem _ hy))]

/-! ### Reader / writer helpers -/

theorem my_read_exact (pre rest : List Nat) (n : Nat) (hn : pre.length = n)
    (hb : ∀ x ∈ pre, x < 256) :
    my_read n (pre ++ rest) = some (pre, rest) := by
  unfold my_read
  rw [if_pos (by simp [List.length_append]; omega)]
  subst hn
  rw [List.take_left, List.drop_left, map_mod_eq_self pre hb]

theorem my_write_listPutc (bytes : List Nat) :
    ∀ w : List Nat, my_write listPutc bytes w = some (w ++ bytes.map (· % 256)) := by
  induction bytes with
  | nil => intro w; simp [my_write, listPutc]
  | cons b bs ih =>
    intro w
    have hstep : my_write listPutc (b :: bs) w = my_write listPutc bs (w ++ [b % 256]) :=
      rfl
    rw [hstep, ih]
    simp

/-- Consequences of `compute_buffer_size` succeeding. -/
theorem cbs_ok_spec (k b : Nat) (h : (compute_buffer_size k b).1 = HIBP_OK) :
    k ≠ 0 ∧ b ≤ LOG2_BITS_MAX ∧ k ≤ N_HASH_FUNCTIONS_MAX := by
  unfold compute_buffer_size at h
  by_cases h1 : k = 0
  · rw [if_pos h1] at h
    exact absurd h (by decide)
  · rw [if_neg h1] at h
    by_cases h2 : LOG2_BITS_MAX < b ∨ N_HASH_FUNCTIONS_MAX < k
    · rw [if_pos h2] at h
      exact absurd h (by decide)
    · push_neg at h2
      exact ⟨h1, h2.1, h2.2⟩

theorem take_cbs_eq_self (bf : hibp_bloom_filter)
    (hlen : bf.buffer.length = (compute_buffer_size bf.n_hash_functions bf.log2_bits).2) :
    bf.buffer.take (compute_buffer_size bf.n_hash_functions bf.log2_bits).2 = bf.buffer := by
  rw [← hlen, List.take_length]

theorem log2_bits_mod_256 (bf : hibp_bloom_filter)
    (hok : (compute_buffer_size bf.n_hash_functions bf.log2_bits).1 = HIBP_OK) :
    bf.log2_bits % 256 = bf.log2_bits := by
  obtain ⟨-, hble, -⟩ := cbs_ok_spec _ _ hok
  have : bf.log2_bits ≤ 64 := by
    have h64 : LOG2_BITS_MAX = 64 := by decide
    omega
  exact Nat.mod_eq_of_lt (by omega)

/-- The exact byte sequence produced by saving a well-formed filter to an
in-memory stream: magic marker, `k` as 8 LE bytes, `b` as one byte, the
SHA-1 of the buffer (`H` followed by `V`), then the buffer itself. -/
theorem save_bytes_spec (sha1fn : List Nat → List Nat) (bf : hibp_bloom_filter)
    (hWF : WellFormed bf) (hsha : SHA1FnOK sha1fn) :
    hibp_bf_save_bytes sha1fn bf =
      (HIBP_OK, some (VERSION ++ size_t_to_le_8_bytes bf.n_hash_functions ++
        [bf.log2_bits] ++ sha1fn bf.buffer ++ bf.buffer)) := by
  obtain ⟨hok, hlen, hbytes⟩ := hWF
  have hb256 : bf.log2_bits % 256 = bf.log2_bits := log2_bits_mod_256 bf hok
  have htake := take_cbs_eq_self bf hlen
  have hmapv : VERSION.map (· % 256) = VERSION := by decide
  have hmaple : (size_t_to_le_8_bytes bf.n_hash_functions).map (· % 256) =
      size_t_to_le_8_bytes bf.n_hash_functions :=
    map_mod_eq_self _ (le8_bytes_lt _)
  have hmapsha : (sha1fn bf.buffer).map (· % 256) = sha1fn bf.buffer :=
    map_mod_eq_self _ (hsha bf.buffer).2
  have hmapbuf : bf.buffer.map (· % 256) = bf.buffer :=
    map_mod_eq_self _ hbytes
  unfold hibp_bf_save_bytes hibp_bf_save_stream
  rw [my_write_listPutc, hmapv]
  simp only []
  rw [my_write_listPutc, hmaple]
  simp only [listPutc, hb256]
  rw [if_neg (by rw [hok]; simp)]
  rw [htake, my_write_listPutc, hmapsha]
  simp only []
  rw [my_write_listPutc, hmapbuf]
  simp only [List.nil_append, List.append_assoc]

theorem my_read_all (l : List Nat) (n : Nat) (hn : l.length = n)
    (hb : ∀ x ∈ l, x < 256) :
    my_read n l = some (l, []) := by
  have h := my_read_exact l [] n hn hb
  rwa [List.append_nil] at h

/-- Loading the exact byte layout `save` produces restores the filter
verbatim. -/
theorem load_of_layout (sha1fn : List Nat → List Nat) (bf : hibp_bloom_filter)
    (hWF : WellFormed bf) (hsha : SHA1FnOK sha1fn) :
    hibp_bf_load_stream sha1fn
      (VERSION ++ size_t_to_le_8_bytes bf.n_hash_functions ++ [bf.log2_bits] ++
        sha1fn bf.buffer ++ bf.buffer) = (HIBP_OK, some bf) := by
  obtain ⟨hok, hlen, hbytes⟩ := hWF
  obtain ⟨hk0, hble, hkle⟩ := cbs_ok_spec _ _ hok
  have hklt : bf.n_hash_functions < 2 ^ 64 := by
    have : N_HASH_FUNCTIONS_MAX = 2 ^ 64 - 1 := by decide
    omega
  have hb256 : bf.log2_bits < 256 := by
    have h64 : LOG2_BITS_MAX = 64 := by decide
    omega
  have hassoc : VERSION ++ size_t_to_le_8_bytes bf.n_hash_functions ++ [bf.log2_bits] ++
      sha1fn bf.buffer ++ bf.buffer =
      VERSION ++ (size_t_to_le_8_bytes bf.n_hash_functions ++ ([bf.log2_bits] ++
        (sha1fn bf.buffer ++ bf.buffer))) := by
    simp [List.append_assoc]
  unfold hibp_bf_load_stream
  rw [hassoc]
  rw [my_read_exact VERSION _ 4 (by decide) (by decide)]
  simp only []
  rw [if_neg (by simp)]
  rw [my_read_exact (size_t_to_le_8_bytes bf.n_hash_functions) _ 8 (le8_length _)
    (le8_bytes_lt _)]
  simp only []
  rw [my_read_exact [bf.log2_bits] _ 1 rfl (by intro x hx; simp at hx; omega)]
  simp only [le8_roundtrip _ hklt, List.getD_cons_zero]
  rw [if_neg (by rw [hok]; simp)]
  rw [my_read_exact (sha1fn bf.buffer) _ SHA1_BYTES
    (by rw [(hsha bf.buffer).1]; decide) (hsha bf.buffer).2]
  simp only []
  rw [my_read_all bf.buffer _ hlen hbytes]
  simp only []
  rw [if_neg (by simp)]

/-- Every failure path of `hibp_bf_save_stream` (for a filter whose
parameters validate, so that the `assert(st == HIBP_OK)` branch is
unreachable) reports `HIBP_E_IOERR`: write failures are the only errors. -/
theorem save_errors_are_io {W : Type} (sha1fn : List Nat → List Nat)
    (putc : Nat → W → Option W) (bf : hibp_bloom_filter) (w : W)
    (hok : (compute_buffer_size bf.n_hash_functions bf.log2_bits).1 = HIBP_OK) :
    (hibp_bf_save_stream sha1fn putc bf w).1 = HIBP_OK ∨
    (hibp_bf_save_stream sha1fn putc bf w).1 = HIBP_E_IOERR := by
  unfold hibp_bf_save_stream
  cases my_write putc VERSION w with
  | none => right; rfl
  | some w1 =>
    simp only []
    cases my_write putc (size_t_to_le_8_bytes bf.n_hash_functions) w1 with
    | none => right; rfl
    | some w2 =>
      simp only []
      cases putc bf.log2_bits w2 with
      | none => right; rfl
      | some w3 =>
        simp only []
        rw [if_neg (by rw [hok]; simp)]
        cases my_write putc
            (sha1fn (bf.buffer.take
              (compute_buffer_size bf.n_hash_functions bf.log2_bits).2)) w3 with
        | none => right; rfl
        | some w4 =>
          simp only []
          cases my_write putc
              (bf.buffer.take
                (compute_buffer_size bf.n_hash_functions bf.log2_bits).2) w4 with
          | none => right; rfl
          | some w5 => left; rfl

/-- Claim C3.  Serialized layout: saving a well-formed filter emits exactly,
in order, the magic bytes `B1 00 13 37`, `k` as 8 little-endian bytes, `b`
as a single byte, the 20-byte SHA-1 of `H ++ V`, then the `k*b` bytes of `H`
followed by the `ceil(2^b/8)` bytes of `V` (the buffer, with no separator);
and with an arbitrary byte writer the only statuses `save` can return are
`HIBP_OK` and `HIBP_E_IOERR` — any byte-write failure yields `Io`. -/
theorem save_stream_layout (sha1fn : List Nat → List Nat) (bf : hibp_bloom_filter)
    (hWF : WellFormed bf) (hsha : SHA1FnOK sha1fn) :
    hibp_bf_save_bytes sha1fn bf
      = (HIBP_OK, some (VERSION ++ size_t_to_le_8_bytes bf.n_hash_functions ++
          [bf.log2_bits] ++ sha1fn bf.buffer ++ bf.buffer)) ∧
    (∀ (W : Type) (putc : Nat → W → Option W) (w : W),
        (hibp_bf_save_stream sha1fn putc bf w).1 = HIBP_OK ∨
        (hibp_bf_save_stream sha1fn putc bf w).1 = HIBP_E_IOERR) :=
  ⟨save_bytes_spec sha1fn bf hWF hsha,
   fun _ putc w => save_errors_are_io sha1fn putc bf w hWF.1⟩

/-- Witness for C3 at a concrete filter, dummy SHA-1 and a writer that
fails immediately (exhibiting the `Io` side). -/
theorem save_stream_layout_witness :
    hibp_bf_save_bytes constSha1 ⟨1, 1, [3, 0]⟩
      = (HIBP_OK, some (VERSION ++ size_t_to_le_8_bytes 1 ++ [1] ++
          constSha1 [3, 0] ++ [3, 0])) ∧
    ((hibp_bf_save_stream constSha1 (fun _ (_ : Unit) => none) ⟨1, 1, [3, 0]⟩ ()).1
        = HIBP_OK ∨
      (hibp_bf_save_stream constSha1 (fun _ (_ : Unit) => none) ⟨1, 1, [3, 0]⟩ ()).1
        = HIBP_E_IOERR) := by
  have h := save_stream_layout constSha1 ⟨1, 1, [3, 0]⟩ (by decide)
    (fun bytes => ⟨by simp [constSha1], by intro b hb; simp [constSha1] at hb; omega⟩)
  exact ⟨h.1, h.2 Unit (fun _ _ => none) ()⟩

/-- Claim C2.  Save/load round-trip: saving a well-formed filter to an
in-memory byte stream succeeds, loading those bytes back succeeds and
returns a filter with the same `k`, `b` and byte-identical buffer (`H` and
`V`); consequently every `query_bytes` result is preserved. -/
theorem save_then_load_roundtrip (sha1fn : List Nat → List Nat)
    (bf : hibp_bloom_filter) (hWF : WellFormed bf) (hsha : SHA1FnOK sha1fn) :
    ∃ out : List Nat,
      hibp_bf_save_bytes sha1fn bf = (HIBP_OK, some out) ∧
      hibp_bf_load_stream sha1fn out = (HIBP_OK, some bf) ∧
      ∀ F : hibp_bloom_filter, hibp_bf_load_stream sha1fn out = (HIBP_OK, some F) →
        F.n_hash_functions = bf.n_hash_functions ∧ F.log2_bits = bf.log2_bits ∧
        F.buffer = bf.buffer ∧
        ∀ s : List Nat, hibp_bf_query sha1fn F s = hibp_bf_query sha1fn bf s := by
  refine ⟨VERSION ++ size_t_to_le_8_bytes bf.n_hash_functions ++ [bf.log2_bits] ++
    sha1fn bf.buffer ++ bf.buffer, save_bytes_spec sha1fn bf hWF hsha,
    load_of_layout sha1fn bf hWF hsha, ?_⟩
  intro F hF
  rw [load_of_layout sha1fn bf hWF hsha] at hF
  have hFbf : F = bf := by
    have := congrArg Prod.snd hF
    simp only [] at this
    exact ((Option.some.injEq _ _).mp this).symm
  subst hFbf
  exact ⟨rfl, rfl, rfl, fun _ => rfl⟩

/-- Witness for C2 at a concrete filter and dummy SHA-1. -/
theorem save_then_load_roundtrip_witness :
    ∃ out : List Nat,
      hibp_bf_save_bytes constSha1 ⟨1, 1, [3, 0]⟩ = (HIBP_OK, some out) ∧
      hibp_bf_load_stream constSha1 out = (HIBP_OK, some ⟨1, 1, [3, 0]⟩) := by
  obtain ⟨out, h1, h2, -⟩ := save_then_load_roundtrip constSha1 ⟨1, 1, [3, 0]⟩
    (by decide)
    (fun bytes => ⟨by simp [constSha1], by intro b hb; simp [constSha1] at hb; omega⟩)
  exact ⟨out, h1, h2⟩

theorem cpLoop_succ (kf sizef : Nat → Nat) (mm fuel b : Nat) (acc : Nat × Nat) :
    cpLoop kf sizef mm (fuel + 1) b acc =
      if mm < sizef b ∧ 8 < b then acc
      else cpLoop kf sizef mm fuel (b + 1) (kf b, b) := rfl

theorem constrainedK_eq_one (b : Nat) (_h8 : 8 ≤ b) (h12 : b ≤ 12) :
    constrainedK (2 ^ 62) b = 1 := by
  unfold constrainedK
  rw [if_neg (by norm_num)]
  have hceil : ⌈((2 : ℝ) ^ b / (((2 : Nat) ^ 62 : Nat) : ℝ)) * Real.log 2 + 1e-6⌉₊
      = 1 := by
    rw [Nat.ceil_eq_iff (by norm_num)]
    have hc : (((2 : Nat) ^ 62 : Nat) : ℝ) = 2 ^ 62 := by push_cast; ring
    have hlogpos : 0 < Real.log 2 := Real.log_pos (by norm_num)
    constructor
    · have hdpos : (0 : ℝ) < 2 ^ b / (((2 : Nat) ^ 62 : Nat) : ℝ) := by
        rw [hc]; positivity
      have := mul_pos hdpos hlogpos
      push_cast
      nlinarith
    · have hlog : Real.log 2 < 0.6931471808 := Real.log_two_lt_d9
      have hpow : (2 : ℝ) ^ b ≤ 2 ^ 12 := by
        apply pow_le_pow_right (by norm_num) h12
      rw [hc]
      have hd : (2 : ℝ) ^ b / 2 ^ 62 ≤ 2 ^ 12 / 2 ^ 62 :=
        (div_le_div_right (by positivity)).mpr hpow
      have hmul : (2 : ℝ) ^ b / 2 ^ 62 * Real.log 2 ≤
          2 ^ 12 / 2 ^ 62 * 0.6931471808 := by
        apply mul_le_mul hd (le_of_lt hlog) (le_of_lt hlogpos) (by positivity)
      have hnum : (2 : ℝ) ^ 12 / 2 ^ 62 * 0.6931471808 + 1e-6 ≤ 1 := by norm_num
      push_cast
      linarith
  rw [hceil]
  have : N_HASH_FUNCTIONS_MAX = 2 ^ 64 - 1 := by decide
  omega

/-- Claim C5 (refutation at a concrete input).  The selection rule of
`hibp_compute_constrained_params` does *not* measure candidates by
`k*b + ceil(2^b/8)`: the source calls `compute_buffer_size` with its two
parameters swapped, so the measured size is `k*b + ceil(2^k/8)`.  At
`count = 2^62`, `max_memory = 12`, the per-candidate `k` is `1` for every
`b ≤ 12`, the swapped size is `b + 1`, and the code iterates up to and
returns `(k, b) = (1, 11)`; the claimed rule (sizes `b + ceil(2^b/8)`,
already over budget at `b = 8`) would return `(1, 8)`. -/
theorem constrained_params_swapped_size :
    hibp_compute_constrained_params (2 ^ 62) 12 = (1, 11) ∧
    constrainedParamsClaim (2 ^ 62) 12 = (1, 8) := by
  have hkc8 := constrainedK_eq_one 8 (by norm_num) (by norm_num)
  have hkc9 := constrainedK_eq_one 9 (by norm_num) (by norm_num)
  have hkc10 := constrainedK_eq_one 10 (by norm_num) (by norm_num)
  have hkc11 := constrainedK_eq_one 11 (by norm_num) (by norm_num)
  have hkc12 := constrainedK_eq_one 12 (by norm_num) (by norm_num)
  have hsz9 : constrainedSizeCode (2 ^ 62) 9 = 10 := by
    unfold constrainedSizeCode
    rw [hkc9]
    decide
  have hsz10 : constrainedSizeCode (2 ^ 62) 10 = 11 := by
    unfold constrainedSizeCode
    rw [hkc10]
    decide
  have hsz11 : constrainedSizeCode (2 ^ 62) 11 = 12 := by
    unfold constrainedSizeCode
    rw [hkc11]
    decide
  have hsz12 : constrainedSizeCode (2 ^ 62) 12 = 13 := by
    unfold constrainedSizeCode
    rw [hkc12]
    decide
  have hscl9 : constrainedSizeClaim (2 ^ 62) 9 = 73 := by
    unfold constrainedSizeClaim
    rw [hkc9]
    norm_num
  constructor
  · unfold hibp_compute_constrained_params CP_FUEL
    rw [show (512 : Nat) = 511 + 1 from rfl, cpLoop_succ, if_neg (by simp)]
    rw [show (511 : Nat) = 510 + 1 from rfl, cpLoop_succ,
      if_neg (by rw [hsz9]; norm_num)]
    rw [show (510 : Nat) = 509 + 1 from rfl, cpLoop_succ,
      if_neg (by rw [hsz10]; norm_num)]
    rw [show (509 : Nat) = 508 + 1 from rfl, cpLoop_succ,
      if_neg (by rw [hsz11]; norm_num)]
    rw [show (508 : Nat) = 507 + 1 from rfl, cpLoop_succ,
      if_pos (by rw [hsz12]; norm_num)]
    rw [hkc11]
  · unfold constrainedParamsClaim CP_FUEL
    rw [show (512 : Nat) = 511 + 1 from rfl, cpLoop_succ, if_neg (by simp)]
    rw [show (511 : Nat) = 510 + 1 from rfl, cpLoop_succ,
      if_pos (by rw [hscl9]; norm_num)]
    rw [hkc8]
